import Mathlib

/-!
Shallow embedding of the stroke-compositing engine of `src/src/App.tsx`
(a pixel-art painting surface).

Modelling conventions:
* A hex color string `#RRGGBB` is represented by its 24-bit numeric value
  (the value `parseInt(hex, 16)` computes in `hexToRgb`); `rgbToHex`
  correspondingly packs the three 8-bit channels back into that value.
* JavaScript numbers are modelled by `ℕ` / `ℤ` / `ℚ` as appropriate; all
  arithmetic the engine performs on colors and opacities is exact in
  binary64, so the `ℚ` model agrees with the source. `Math.round` rounds
  half-up, i.e. `⌊q + 1/2⌋`.
* Arrays become `List`s; `makeMatrix`, in-place element assignment
  (`List.set`) and index reads (`List.getD`) mirror the source.
* The React state triple (`canvasData`, `strokeData`, `canvasHistory`)
  together with the `strokeDown` flag becomes the record `AppState`;
  the `endStroke` listener and the `drawBrush` handler become state
  transformers on it.  Canvas-2D rendering calls are pure display output
  and are omitted; `overlayStrokeData`'s grid computation is kept.
-/

namespace Painting

def PIXEL_SIZE : ℕ := 12

def GRID_SIZE : ℕ := 32

structure RGB where
  r : ℕ
  g : ℕ
  b : ℕ
deriving DecidableEq, Repr

/-- `hexToRgb` of `App.tsx`: extract the three channels of a packed
24-bit color value via shifts and masks. -/
def hexToRgb (num : ℕ) : RGB :=
  { r := num / 65536 % 256
    g := num / 256 % 256
    b := num % 256 }

/-- `rgbToHex` of `App.tsx`: pack three channels back into one value
(the numeric reading of the `#rrggbb` string it builds). -/
def rgbToHex (c : RGB) : ℕ :=
  c.r * 65536 + c.g * 256 + c.b

/-- JavaScript `Math.round`: round half toward positive infinity. -/
def jsRound (q : ℚ) : ℤ := ⌊q + 1 / 2⌋

/-- The per-channel blend inside `blendColors`:
`Math.round(newChannel * alpha + currentChannel * (1 - alpha))`. -/
def blendChannel (newChannel currentChannel : ℕ) (alpha : ℚ) : ℤ :=
  jsRound (newChannel * alpha + currentChannel * (1 - alpha))

/-- `blendColors` of `App.tsx`. -/
def blendColors (currentColor newColor : ℕ) (alpha : ℚ) : ℕ :=
  let currentRgb := hexToRgb currentColor
  let newRgb := hexToRgb newColor
  rgbToHex
    { r := (blendChannel newRgb.r currentRgb.r alpha).toNat
      g := (blendChannel newRgb.g currentRgb.g alpha).toNat
      b := (blendChannel newRgb.b currentRgb.b alpha).toNat }

/-- `makeMatrix` of `App.tsx`: a square matrix filled with one value. -/
def makeMatrix (length : ℕ) (value : α) : List (List α) :=
  List.replicate length (List.replicate length value)

/-- Read `m[x][y]`, with a default for out-of-range indices (the engine
only ever reads in range). -/
def getCell (m : List (List α)) (x y : ℕ) (d : α) : α :=
  (m.getD x []).getD y d

/-- The in-place assignment `m[x][y] = v` on a copied matrix. -/
def setCell (m : List (List α)) (x y : ℕ) (v : α) : List (List α) :=
  m.set x ((m.getD x []).set y v)

/-- The matrix is rectangular with side `n` (true of every matrix the
engine builds, all being `makeMatrix GRID_SIZE _` plus cell writes). -/
def Rect (m : List (List α)) (n : ℕ) : Prop :=
  m.length = n ∧ ∀ row ∈ m, row.length = n

def BRUSH_CHARACTER : Char := '0'

def CURSOR_CHARACTER : Char := 'X'

/-- `brushMap.replace(/\s+/g, '')`: drop all whitespace characters. -/
def stripWhitespace (s : List Char) : List Char :=
  s.filter (fun c => !c.isWhitespace)

/-- Largest `k ≤ fuel` with `k * k ≤ n` (helper for `intSqrt`). -/
def sqrtAux : ℕ → ℕ → ℕ
  | 0, _ => 0
  | (fuel + 1), n => if (fuel + 1) * (fuel + 1) ≤ n then fuel + 1 else sqrtAux fuel n

/-- Integer square root, `⌊Math.sqrt n⌋` (proved equal to `Nat.sqrt`
below; defined by fuel so that it evaluates by kernel reduction). The
source's `Number.isInteger(Math.sqrt(L))` test is `intSqrt L * intSqrt L = L`,
`Math.sqrt` being exact on the perfect squares in range. -/
def intSqrt (n : ℕ) : ℕ := sqrtAux n n

/-- The anchor-relative offsets `drawBrush` derives from the stripped
pattern: one offset `(index % S - cursor % S, index / S - cursor / S)`
for every fill (`'0'`) or cursor (`'X'`) character. -/
def footprintOffsets (mapPlain : List Char) (mapSideLength cursorIndex : ℕ) :
    List (ℤ × ℤ) :=
  (List.range mapPlain.length).filterMap fun index =>
    let char := mapPlain.getD index ' '
    if char = BRUSH_CHARACTER ∨ char = CURSOR_CHARACTER then
      some (((index % mapSideLength : ℕ) : ℤ) - ((cursorIndex % mapSideLength : ℕ) : ℤ),
            ((index / mapSideLength : ℕ) : ℤ) - ((cursorIndex / mapSideLength : ℕ) : ℤ))
    else none

/-- The bounds filter of `drawBrush`: translate each footprint offset by
the anchor `(x, y)` and keep the results inside `[0, GRID_SIZE)²`. -/
def inBoundsCells (x y : ℤ) (offsets : List (ℤ × ℤ)) : List (ℕ × ℕ) :=
  offsets.filterMap fun off =>
    let xCoord := x + off.1
    let yCoord := y + off.2
    if 0 ≤ xCoord ∧ xCoord < (GRID_SIZE : ℤ) ∧ 0 ≤ yCoord ∧ yCoord < (GRID_SIZE : ℤ) then
      some (xCoord.toNat, yCoord.toNat)
    else none

/-- Outcome of one `drawBrush` call: early return on an empty stripped
pattern, the thrown `Error('Brush map must be a square')`, or the list of
in-bounds cells pushed onto `stroke` together with the missing-cursor
warning flag. -/
inductive DrawResult
  | emptyBrush
  | squareError
  | stamped (warnMissingCursor : Bool) (stroke : List (ℕ × ℕ))
deriving DecidableEq, Repr

/-- `drawBrush` of `App.tsx`, up to the point where the computed cells
are applied to the stroke mask: strip whitespace, early-return if empty,
check the side length is an integer square root, locate the cursor
character (defaulting to index 0 with a console warning when absent), and
collect the in-bounds cells covered by the brush anchored at `(x, y)`. -/
def drawBrush (brushMap : List Char) (x y : ℤ) : DrawResult :=
  let mapPlain := stripWhitespace brushMap
  if mapPlain.length = 0 then
    .emptyBrush
  else
    let mapSideLength := intSqrt mapPlain.length
    if mapSideLength * mapSideLength = mapPlain.length then
      let found := mapPlain.indexOf CURSOR_CHARACTER
      let missingCursor := decide (found = mapPlain.length)
      let cursorIndex := if found = mapPlain.length then 0 else found
      .stamped missingCursor
        (inBoundsCells x y (footprintOffsets mapPlain mapSideLength cursorIndex))
    else
      .squareError

/-- The `setStrokeData` update in `drawBrush`: mark every stroke cell
true in the mask. -/
def markStroke (strokeData : List (List Bool)) (stroke : List (ℕ × ℕ)) :
    List (List Bool) :=
  stroke.foldl (fun sd c => setCell sd c.1 c.2 true) strokeData

/-- The React `canvasData` state object (rendering-only fields dropped
keep exactly its persisted shape). -/
structure CanvasData where
  canvas : List (List ℕ)
  brushColor : ℕ
  brushMap : List Char
  opacity : ℚ

/-- One iteration of the inner loop of `overlayStrokeData`: blend cell
`(x, y)` of the copy when the mask is set there. -/
def overlayCell (brushColor : ℕ) (opacity : ℚ) (strokeData : List (List Bool))
    (canvasCopy : List (List ℕ)) (x y : ℕ) : List (List ℕ) :=
  let strokeHere := getCell strokeData x y false
  let currentColor := getCell canvasCopy x y 0
  let color := if strokeHere then blendColors currentColor brushColor opacity else currentColor
  setCell canvasCopy x y color

/-- The inner `for y` loop of `overlayStrokeData`, run for `y < n`. -/
def overlayRow (brushColor : ℕ) (opacity : ℚ) (strokeData : List (List Bool))
    (canvasCopy : List (List ℕ)) (x n : ℕ) : List (List ℕ) :=
  (List.range n).foldl (fun cc y => overlayCell brushColor opacity strokeData cc x y) canvasCopy

/-- `overlayStrokeData` of `App.tsx` (the grid computation; the canvas-2D
painting it interleaves is display-only): blend every masked cell of a
copy of the canvas with the brush color at the current opacity. -/
def overlayStrokeData (canvasData : CanvasData) (updatedStrokeData : List (List Bool)) :
    List (List ℕ) :=
  (List.range GRID_SIZE).foldl
    (fun cc x => overlayRow canvasData.brushColor canvasData.opacity updatedStrokeData cc x GRID_SIZE)
    canvasData.canvas

/-- The full component state relevant to the engine. -/
structure AppState where
  strokeDown : Bool
  canvasData : CanvasData
  strokeData : List (List Bool)
  canvasHistory : List (List (List ℕ))

/-- The history-dedup test in `endStroke`:
`prev.canvas.some((row, x) => row.some((cell, y) => cell !== history[0][x][y]))`. -/
def canvasDiffers (canvas top : List (List ℕ)) : Bool :=
  canvas.enum.any fun rowx =>
    rowx.2.enum.any fun celly => celly.2 ≠ getCell top rowx.1 celly.1 0

/-- The `setCanvasHistory` updater in `endStroke`: push the pre-stroke
canvas in front of the first 10 old entries, but only when the history is
non-empty and the pre-stroke canvas differs from its top entry. -/
def historyUpdate (history : List (List (List ℕ))) (prevCanvas : List (List ℕ)) :
    List (List (List ℕ)) :=
  if 0 < history.length ∧ canvasDiffers prevCanvas (history.getD 0 []) = true then
    prevCanvas :: history.take 10
  else
    history

/-- The `endStroke` listener: when a stroke is down, update the history
from the pre-stroke canvas, commit the stroke mask into the canvas, and
reset the mask; always clear `strokeDown`. -/
def endStroke (s : AppState) : AppState :=
  if s.strokeDown then
    { strokeDown := false
      canvasData := { s.canvasData with canvas := overlayStrokeData s.canvasData s.strokeData }
      strokeData := makeMatrix GRID_SIZE false
      canvasHistory := historyUpdate s.canvasHistory s.canvasData.canvas }
  else
    { s with strokeDown := false }

/-- The cells a `drawBrush` call stamps (empty when it early-returns or
throws). -/
def strokeCells (brushMap : List Char) (x y : ℤ) : List (ℕ × ℕ) :=
  match drawBrush brushMap x y with
  | .stamped _ stroke => stroke
  | _ => []

/-- A `drawBrush` call as a state transformer: mark the stamped cells in
the stroke mask (a throw or early return leaves the state unchanged,
since `setStrokeData` is then never called). -/
def stamp (s : AppState) (x y : ℤ) : AppState :=
  match drawBrush s.canvasData.brushMap x y with
  | .stamped _ stroke => { s with strokeData := markStroke s.strokeData stroke }
  | _ => s

/-- Engine-level events: `handleMouseDown` (press), `handleMouseMove`
with the button held (move), and the `mouseup` listener (release). -/
inductive Op
  | press (x y : ℤ)
  | move (x y : ℤ)
  | release
deriving Repr

/-- One event step: a press sets `strokeDown` and stamps, a move stamps
only while the stroke is down, a release runs `endStroke`. -/
def step (s : AppState) : Op → AppState
  | .press x y => stamp { s with strokeDown := true } x y
  | .move x y => if s.strokeDown then stamp s x y else s
  | .release => endStroke s

def run (s : AppState) (ops : List Op) : AppState :=
  ops.foldl step s

/-- `Colors.White` of `App.tsx` (`#F9FFFE`). -/
def whiteColor : ℕ := 0xF9FFFE

/-- `Colors.Red` of `App.tsx` (`#D02E26`). -/
def redColor : ℕ := 0xD02E26

/-- `BrushSizes.Tiny` of `App.tsx`. -/
def tinyBrush : List Char := ['X']

/-- `BrushSizes.Medium` of `App.tsx`, as its character list. -/
def mediumBrush : List Char :=
  ("_00_
          0X00
          0000
          _00_").toList

/-- The initial React state: white canvas, red tiny brush at full
opacity, all-false stroke mask, empty history. -/
def initState : AppState :=
  { strokeDown := false
    canvasData :=
      { canvas := makeMatrix GRID_SIZE whiteColor
        brushColor := redColor
        brushMap := tinyBrush
        opacity := 1 }
    strokeData := makeMatrix GRID_SIZE false
    canvasHistory := [] }

/-! ### Integer square root -/

theorem sqrtAux_le (fuel n : ℕ) : sqrtAux fuel n ≤ fuel := by
  induction fuel with
  | zero => exact le_rfl
  | succ k ih =>
    rw [sqrtAux]
    split
    · exact le_rfl
    · exact le_trans ih (by omega)

theorem sqrtAux_sq_le (fuel n : ℕ) : sqrtAux fuel n * sqrtAux fuel n ≤ n := by
  induction fuel with
  | zero => simp [sqrtAux]
  | succ k ih =>
    rw [sqrtAux]
    split
    · assumption
    · exact ih

theorem le_sqrtAux (fuel n : ℕ) : ∀ k, k ≤ fuel → k * k ≤ n → k ≤ sqrtAux fuel n := by
  induction fuel with
  | zero =>
    intro k hk _
    omega
  | succ m ih =>
    intro k hk hsq
    rw [sqrtAux]
    split
    · omega
    · rename_i hlt
      have hkm : k ≤ m := by
        rcases Nat.lt_or_ge k (m + 1) with h | h
        · omega
        · exact absurd (le_trans (by nlinarith) hsq) hlt
      exact ih k hkm hsq

theorem intSqrt_eq_sqrt (n : ℕ) : intSqrt n = Nat.sqrt n := by
  refine le_antisymm (Nat.le_sqrt.mpr (sqrtAux_sq_le n n)) ?_
  exact le_sqrtAux n n _ (Nat.sqrt_le_self n) (Nat.sqrt_le n)

theorem intSqrt_le (n : ℕ) : intSqrt n ≤ n := sqrtAux_le n n

/-! ### Basic cell access lemmas -/

theorem getCell_setCell_ne {α : Type} (m : List (List α)) (a b x y : ℕ) (v d : α)
    (h : a ≠ x ∨ b ≠ y) :
    getCell (setCell m a b v) x y d = getCell m x y d := by
  simp only [getCell, setCell, List.getD_eq_getElem?_getD]
  rw [List.getElem?_set]
  by_cases hx : a = x
  · subst hx
    have hb : b ≠ y := h.resolve_left (by simp)
    rw [if_pos rfl]
    by_cases hlen : a < m.length
    · rw [if_pos hlen]
      simp only [Option.getD_some]
      rw [List.getElem?_set_ne hb]
    · rw [if_neg hlen, List.getElem?_eq_none (le_of_not_lt hlen)]
  · rw [if_neg hx]

theorem getCell_setCell_eq {α : Type} (m : List (List α)) (x y : ℕ) (v d : α)
    (hx : x < m.length) (hy : y < (m.getD x []).length) :
    getCell (setCell m x y v) x y d = v := by
  have hy' : y < (m[x]?.getD []).length := by
    rw [← List.getD_eq_getElem?_getD]
    exact hy
  simp only [getCell, setCell, List.getD_eq_getElem?_getD]
  rw [List.getElem?_set, if_pos rfl, if_pos hx]
  simp only [Option.getD_some]
  rw [List.getElem?_set, if_pos rfl, if_pos hy']
  rfl

theorem Rect.row_length {α : Type} {m : List (List α)} {n : ℕ} (h : Rect m n)
    {x : ℕ} (hx : x < n) : (m.getD x []).length = n := by
  have hx' : x < m.length := h.1 ▸ hx
  have hrow : m.getD x [] = m[x] := by
    rw [List.getD_eq_getElem?_getD, List.getElem?_eq_getElem hx']
    rfl
  rw [hrow]
  exact h.2 _ (List.getElem_mem hx')

theorem rect_setCell {α : Type} {m : List (List α)} {n : ℕ} (h : Rect m n)
    (x y : ℕ) (v : α) : Rect (setCell m x y v) n := by
  by_cases hx : x < m.length
  · refine ⟨by rw [setCell, List.length_set]; exact h.1, ?_⟩
    intro row hrow
    rcases List.mem_or_eq_of_mem_set hrow with hmem | heq
    · exact h.2 _ hmem
    · subst heq
      rw [List.length_set]
      exact h.row_length (h.1 ▸ hx)
  · rw [setCell, List.set_eq_of_length_le (le_of_not_lt hx)]
    exact h

theorem rect_makeMatrix {α : Type} (n : ℕ) (v : α) : Rect (makeMatrix n v) n := by
  refine ⟨List.length_replicate n _, ?_⟩
  intro row hrow
  rw [List.eq_of_mem_replicate hrow]
  exact List.length_replicate n v

theorem getCell_makeMatrix {α : Type} (n : ℕ) (v : α) (x y : ℕ) (d : α)
    (hx : x < n) (hy : y < n) : getCell (makeMatrix n v) x y d = v := by
  simp only [getCell, makeMatrix, List.getD_eq_getElem?_getD]
  rw [List.getElem?_replicate, if_pos hx]
  simp only [Option.getD_some]
  rw [List.getElem?_replicate, if_pos hy]
  rfl

/-! ### Stroke mask lemmas -/

theorem markStroke_cons (sd : List (List Bool)) (c : ℕ × ℕ) (st : List (ℕ × ℕ)) :
    markStroke sd (c :: st) = markStroke (setCell sd c.1 c.2 true) st := rfl

theorem rect_markStroke {sd : List (List Bool)} {n : ℕ} (h : Rect sd n)
    (st : List (ℕ × ℕ)) : Rect (markStroke sd st) n := by
  induction st generalizing sd with
  | nil => exact h
  | cons c rest ih => exact markStroke_cons sd c rest ▸ ih (rect_setCell h c.1 c.2 true)

theorem getCell_markStroke {sd : List (List Bool)} {n : ℕ} (h : Rect sd n)
    (st : List (ℕ × ℕ)) (hst : ∀ c ∈ st, c.1 < n ∧ c.2 < n) (i j : ℕ) :
    getCell (markStroke sd st) i j false = true
      ↔ (getCell sd i j false = true ∨ (i, j) ∈ st) := by
  induction st generalizing sd with
  | nil => simp [markStroke]
  | cons c rest ih =>
    obtain ⟨ci, cj⟩ := c
    rw [markStroke_cons]
    rw [ih (rect_setCell h ci cj true) (fun c' hc' => hst c' (List.mem_cons_of_mem _ hc'))]
    by_cases hc : ci = i ∧ cj = j
    · obtain ⟨hci, hcj⟩ := hc
      subst hci
      subst hcj
      have hb := hst (ci, cj) (List.mem_cons_self _ rest)
      rw [getCell_setCell_eq sd ci cj true false (h.1 ▸ hb.1)
        ((h.row_length hb.1).symm ▸ hb.2)]
      simp
    · have hne : ci ≠ i ∨ cj ≠ j := by omega
      rw [getCell_setCell_ne sd ci cj i j true false hne]
      rw [List.mem_cons]
      have hne' : ¬((i, j) = (ci, cj)) := by
        simp only [Prod.mk.injEq]
        omega
      tauto

/-! ### Overlay (commit) loop characterization -/

theorem overlayRow_zero (bc : ℕ) (op : ℚ) (sd : List (List Bool))
    (cc : List (List ℕ)) (x : ℕ) : overlayRow bc op sd cc x 0 = cc := rfl

theorem overlayRow_succ (bc : ℕ) (op : ℚ) (sd : List (List Bool))
    (cc : List (List ℕ)) (x n : ℕ) :
    overlayRow bc op sd cc x (n + 1)
      = overlayCell bc op sd (overlayRow bc op sd cc x n) x n := by
  unfold overlayRow
  rw [List.range_succ, List.foldl_append]
  rfl

theorem rect_overlayCell {cc : List (List ℕ)} {N : ℕ} (h : Rect cc N)
    (bc : ℕ) (op : ℚ) (sd : List (List Bool)) (x y : ℕ) :
    Rect (overlayCell bc op sd cc x y) N :=
  rect_setCell h x y _

theorem rect_overlayRow {cc : List (List ℕ)} {N : ℕ} (h : Rect cc N)
    (bc : ℕ) (op : ℚ) (sd : List (List Bool)) (x n : ℕ) :
    Rect (overlayRow bc op sd cc x n) N := by
  induction n with
  | zero => exact h
  | succ k ih =>
    rw [overlayRow_succ]
    exact rect_overlayCell ih bc op sd x k

theorem overlayRow_get (bc : ℕ) (op : ℚ) (sd : List (List Bool))
    (cc : List (List ℕ)) (h : Rect cc 32) (x : ℕ) (hx : x < 32) :
    ∀ n, n ≤ 32 → ∀ i j d,
    getCell (overlayRow bc op sd cc x n) i j d
      = if i = x ∧ j < n then
          (if getCell sd x j false then blendColors (getCell cc x j 0) bc op
           else getCell cc x j 0)
        else getCell cc i j d := by
  intro n
  induction n with
  | zero =>
    intro _ i j d
    have h0 : ¬(i = x ∧ j < 0) := by omega
    rw [overlayRow_zero, if_neg h0]
  | succ k ih =>
    intro hn i j d
    have hk : k ≤ 32 := by omega
    have hR : Rect (overlayRow bc op sd cc x k) 32 := rect_overlayRow h bc op sd x k
    rw [overlayRow_succ]
    simp only [overlayCell]
    have hread : getCell (overlayRow bc op sd cc x k) x k 0 = getCell cc x k 0 := by
      have hno : ¬(x = x ∧ k < k) := by omega
      rw [ih hk x k 0, if_neg hno]
    by_cases hij : i = x ∧ j = k
    · obtain ⟨h1, h2⟩ := hij
      have hxl : x < (overlayRow bc op sd cc x k).length := by
        rw [hR.1]; exact hx
      have hyl : k < ((overlayRow bc op sd cc x k).getD x []).length := by
        rw [hR.row_length hx]; omega
      rw [h1, h2]
      rw [getCell_setCell_eq _ x k _ d hxl hyl]
      rw [hread]
      have hcond : x = x ∧ k < k + 1 := ⟨rfl, by omega⟩
      rw [if_pos hcond]
    · have hne : x ≠ i ∨ k ≠ j := by omega
      rw [getCell_setCell_ne _ x k i j _ d hne]
      rw [ih hk i j d]
      by_cases hcond : i = x ∧ j < k
      · have hcond2 : i = x ∧ j < k + 1 := ⟨hcond.1, by omega⟩
        rw [if_pos hcond, if_pos hcond2]
      · have hcond2 : ¬(i = x ∧ j < k + 1) := by omega
        rw [if_neg hcond, if_neg hcond2]

theorem rect_overlayFold {canvas : List (List ℕ)} {N : ℕ} (h : Rect canvas N)
    (bc : ℕ) (op : ℚ) (sd : List (List Bool)) (k : ℕ) :
    Rect ((List.range k).foldl (fun cc x => overlayRow bc op sd cc x 32) canvas) N := by
  induction k with
  | zero => exact h
  | succ m ih =>
    rw [List.range_succ, List.foldl_append]
    simp only [List.foldl_cons, List.foldl_nil]
    exact rect_overlayRow ih bc op sd m 32

theorem overlayFold_get (bc : ℕ) (op : ℚ) (sd : List (List Bool))
    (canvas : List (List ℕ)) (h : Rect canvas 32) :
    ∀ k, k ≤ 32 → ∀ i j d, i < 32 → j < 32 →
    getCell ((List.range k).foldl (fun cc x => overlayRow bc op sd cc x 32) canvas) i j d
      = if i < k then
          (if getCell sd i j false then blendColors (getCell canvas i j 0) bc op
           else getCell canvas i j 0)
        else getCell canvas i j d := by
  intro k
  induction k with
  | zero =>
    intro _ i j d hi hj
    have h0 : ¬ i < 0 := by omega
    rw [if_neg h0, List.range_zero, List.foldl_nil]
  | succ m ih =>
    intro hk i j d hi hj
    have hm : m ≤ 32 := by omega
    have hm32 : m < 32 := by omega
    have hF : Rect ((List.range m).foldl (fun cc x => overlayRow bc op sd cc x 32) canvas) 32 :=
      rect_overlayFold h bc op sd m
    rw [List.range_succ, List.foldl_append]
    simp only [List.foldl_cons, List.foldl_nil]
    rw [overlayRow_get bc op sd _ hF m hm32 32 le_rfl i j d]
    by_cases him : i = m
    · have hcond : i = m ∧ j < 32 := ⟨him, hj⟩
      rw [if_pos hcond]
      have hrd : getCell ((List.range m).foldl (fun cc x => overlayRow bc op sd cc x 32) canvas) m j 0
          = getCell canvas m j 0 := by
        have hno : ¬ m < m := by omega
        rw [ih hm m j 0 hm32 hj, if_neg hno]
      rw [hrd]
      have hcond2 : i < m + 1 := by omega
      rw [if_pos hcond2, him]
    · have hcond : ¬(i = m ∧ j < 32) := by tauto
      rw [if_neg hcond, ih hm i j d hi hj]
      by_cases hlt : i < m
      · have hcond2 : i < m + 1 := by omega
        rw [if_pos hlt, if_pos hcond2]
      · have hcond2 : ¬ i < m + 1 := by omega
        rw [if_neg hlt, if_neg hcond2]

/-- Pointwise description of `overlayStrokeData`: each in-bounds cell of
the committed canvas is the original color, blended once with the brush
color exactly when the stroke mask is set there. -/
theorem overlayStrokeData_getCell (cd : CanvasData) (sd : List (List Bool))
    (h : Rect cd.canvas 32) (i j d : ℕ) (hi : i < 32) (hj : j < 32) :
    getCell (overlayStrokeData cd sd) i j d
      = if getCell sd i j false then
          blendColors (getCell cd.canvas i j 0) cd.brushColor cd.opacity
        else getCell cd.canvas i j 0 := by
  have := overlayFold_get cd.brushColor cd.opacity sd cd.canvas h 32 le_rfl i j d hi hj
  rw [if_pos hi] at this
  exact this

theorem rect_overlayStrokeData (cd : CanvasData) (sd : List (List Bool))
    (h : Rect cd.canvas 32) : Rect (overlayStrokeData cd sd) 32 :=
  rect_overlayFold h cd.brushColor cd.opacity sd 32

/-! ### Blend arithmetic -/

theorem jsRound_natCast (n : ℕ) : jsRound (n : ℚ) = n := by
  rw [jsRound, Int.floor_eq_iff]
  constructor
  · push_cast
    linarith
  · push_cast
    linarith

theorem blendChannel_one (n c : ℕ) : blendChannel n c 1 = n := by
  have h : (n : ℚ) * 1 + (c : ℚ) * (1 - 1) = (n : ℚ) := by ring
  rw [blendChannel, h, jsRound_natCast]

theorem blendChannel_nonneg (n c : ℕ) (alpha : ℚ) (h0 : 0 ≤ alpha) (h1 : alpha ≤ 1) :
    0 ≤ blendChannel n c alpha := by
  have hn : (0 : ℚ) ≤ (n : ℚ) * alpha := mul_nonneg (Nat.cast_nonneg n) h0
  have hc : (0 : ℚ) ≤ (c : ℚ) * (1 - alpha) := mul_nonneg (Nat.cast_nonneg c) (by linarith)
  rw [blendChannel, jsRound]
  exact Int.le_floor.mpr (by push_cast; linarith)

theorem blendChannel_le_255 (n c : ℕ) (alpha : ℚ) (h0 : 0 ≤ alpha) (h1 : alpha ≤ 1)
    (hn : n ≤ 255) (hc : c ≤ 255) : blendChannel n c alpha ≤ 255 := by
  have hn' : (n : ℚ) ≤ 255 := by exact_mod_cast hn
  have hc' : (c : ℚ) ≤ 255 := by exact_mod_cast hc
  have hsum : (n : ℚ) * alpha + (c : ℚ) * (1 - alpha) ≤ 255 := by
    nlinarith [mul_nonneg (by linarith : (0 : ℚ) ≤ 255 - (n : ℚ)) h0,
      mul_nonneg (by linarith : (0 : ℚ) ≤ 255 - (c : ℚ)) (by linarith : (0 : ℚ) ≤ 1 - alpha)]
  have hfl : blendChannel n c alpha < 256 := by
    rw [blendChannel, jsRound]
    exact Int.floor_lt.mpr (by push_cast; linarith)
  omega

theorem hexToRgb_le (num : ℕ) :
    (hexToRgb num).r ≤ 255 ∧ (hexToRgb num).g ≤ 255 ∧ (hexToRgb num).b ≤ 255 := by
  unfold hexToRgb
  refine ⟨?_, ?_, ?_⟩ <;> (dsimp only; omega)

theorem rgbToHex_hexToRgb (num : ℕ) (h : num < 16777216) :
    rgbToHex (hexToRgb num) = num := by
  unfold rgbToHex hexToRgb
  dsimp only
  omega

theorem rgbToHex_lt (c : RGB) (hr : c.r ≤ 255) (hg : c.g ≤ 255) (hb : c.b ≤ 255) :
    rgbToHex c < 16777216 := by
  unfold rgbToHex
  omega

/-- `opacity = 1` reduces blending to the new color exactly. -/
theorem blendColors_one (cur ov : ℕ) (hov : ov < 16777216) :
    blendColors cur ov 1 = ov := by
  simp only [blendColors, blendChannel_one, Int.toNat_natCast]
  exact rgbToHex_hexToRgb ov hov

/-- The blend result is always a valid 24-bit color for opacities in
`[0, 1]`, with no explicit clamping in the computation. -/
theorem blendColors_lt (cur ov : ℕ) (alpha : ℚ) (h0 : 0 ≤ alpha) (h1 : alpha ≤ 1) :
    blendColors cur ov alpha < 16777216 := by
  obtain ⟨hovr, hovg, hovb⟩ := hexToRgb_le ov
  obtain ⟨hcur, hcug, hcub⟩ := hexToRgb_le cur
  refine rgbToHex_lt _ ?_ ?_ ?_
  · exact Int.toNat_le.mpr (by exact_mod_cast blendChannel_le_255 _ _ alpha h0 h1 hovr hcur)
  · exact Int.toNat_le.mpr (by exact_mod_cast blendChannel_le_255 _ _ alpha h0 h1 hovg hcug)
  · exact Int.toNat_le.mpr (by exact_mod_cast blendChannel_le_255 _ _ alpha h0 h1 hovb hcub)

/-! ### drawBrush structure -/

theorem drawBrush_empty (bm : List Char) (x y : ℤ) (h : (stripWhitespace bm).length = 0) :
    drawBrush bm x y = .emptyBrush := by
  simp only [drawBrush]
  rw [if_pos h]

theorem drawBrush_squareError (bm : List Char) (x y : ℤ)
    (hne : (stripWhitespace bm).length ≠ 0)
    (hsq : intSqrt (stripWhitespace bm).length * intSqrt (stripWhitespace bm).length
      ≠ (stripWhitespace bm).length) :
    drawBrush bm x y = .squareError := by
  simp only [drawBrush]
  rw [if_neg hne, if_neg hsq]

theorem drawBrush_eq_stamped (bm : List Char) (x y : ℤ)
    (hne : (stripWhitespace bm).length ≠ 0)
    (hsq : intSqrt (stripWhitespace bm).length * intSqrt (stripWhitespace bm).length
      = (stripWhitespace bm).length) :
    drawBrush bm x y = .stamped
      (decide ((stripWhitespace bm).indexOf CURSOR_CHARACTER = (stripWhitespace bm).length))
      (inBoundsCells x y (footprintOffsets (stripWhitespace bm)
        (intSqrt (stripWhitespace bm).length)
        (if (stripWhitespace bm).indexOf CURSOR_CHARACTER = (stripWhitespace bm).length then 0
         else (stripWhitespace bm).indexOf CURSOR_CHARACTER))) := by
  simp only [drawBrush]
  rw [if_neg hne, if_pos hsq]

theorem drawBrush_stamped_inv (bm : List Char) (x y : ℤ) (w : Bool) (st : List (ℕ × ℕ))
    (h : drawBrush bm x y = .stamped w st) :
    (stripWhitespace bm).length ≠ 0
    ∧ intSqrt (stripWhitespace bm).length * intSqrt (stripWhitespace bm).length
        = (stripWhitespace bm).length
    ∧ w = decide ((stripWhitespace bm).indexOf CURSOR_CHARACTER = (stripWhitespace bm).length)
    ∧ st = inBoundsCells x y (footprintOffsets (stripWhitespace bm)
        (intSqrt (stripWhitespace bm).length)
        (if (stripWhitespace bm).indexOf CURSOR_CHARACTER = (stripWhitespace bm).length then 0
         else (stripWhitespace bm).indexOf CURSOR_CHARACTER)) := by
  by_cases h0 : (stripWhitespace bm).length = 0
  · rw [drawBrush_empty bm x y h0] at h
    exact absurd h (by simp)
  · by_cases hsq : intSqrt (stripWhitespace bm).length * intSqrt (stripWhitespace bm).length
        = (stripWhitespace bm).length
    · rw [drawBrush_eq_stamped bm x y h0 hsq] at h
      injection h with hw hst
      exact ⟨h0, hsq, hw.symm, hst.symm⟩
    · rw [drawBrush_squareError bm x y h0 hsq] at h
      exact absurd h (by simp)

theorem inBoundsCells_bounds (x y : ℤ) (offs : List (ℤ × ℤ)) :
    ∀ c ∈ inBoundsCells x y offs, c.1 < GRID_SIZE ∧ c.2 < GRID_SIZE := by
  intro c hc
  simp only [inBoundsCells, List.mem_filterMap] at hc
  obtain ⟨off, _, hoff⟩ := hc
  by_cases hin : 0 ≤ x + off.1 ∧ x + off.1 < (GRID_SIZE : ℤ)
      ∧ 0 ≤ y + off.2 ∧ y + off.2 < (GRID_SIZE : ℤ)
  · rw [if_pos hin] at hoff
    obtain ⟨h1, h2, h3, h4⟩ := hin
    cases hoff
    exact ⟨(Int.toNat_lt h1).mpr h2, (Int.toNat_lt h3).mpr h4⟩
  · rw [if_neg hin] at hoff
    cases hoff

theorem mem_inBoundsCells {off : ℤ × ℤ} {offs : List (ℤ × ℤ)} (x y : ℤ) (hmem : off ∈ offs)
    (h1 : 0 ≤ x + off.1) (h2 : x + off.1 < (GRID_SIZE : ℤ))
    (h3 : 0 ≤ y + off.2) (h4 : y + off.2 < (GRID_SIZE : ℤ)) :
    ((x + off.1).toNat, (y + off.2).toNat) ∈ inBoundsCells x y offs := by
  simp only [inBoundsCells, List.mem_filterMap]
  refine ⟨off, hmem, ?_⟩
  rw [if_pos ⟨h1, h2, h3, h4⟩]

/-- When the cursor marker is present, its own pattern cell contributes
exactly the zero offset. -/
theorem zero_mem_footprintOffsets (mp : List Char) (S : ℕ)
    (hX : CURSOR_CHARACTER ∈ mp) :
    (0, 0) ∈ footprintOffsets mp S (mp.indexOf CURSOR_CHARACTER) := by
  have hlt : mp.indexOf CURSOR_CHARACTER < mp.length := List.indexOf_lt_length.mpr hX
  simp only [footprintOffsets, List.mem_filterMap]
  refine ⟨mp.indexOf CURSOR_CHARACTER, List.mem_range.mpr hlt, ?_⟩
  have hchar : mp.getD (mp.indexOf CURSOR_CHARACTER) ' ' = CURSOR_CHARACTER := by
    rw [List.getD_eq_getElem?_getD, List.getElem?_eq_getElem hlt]
    simp only [Option.getD_some]
    exact List.getElem_indexOf hlt
  rw [if_pos (Or.inr hchar)]
  simp

/-- With the cursor defaulted to index `0`, the zero offset appears in
the footprint exactly when the pattern's first character is a marker. -/
theorem zero_mem_footprintOffsets_missing (mp : List Char) (S : ℕ) :
    ((0, 0) ∈ footprintOffsets mp S 0
      ↔ (mp.getD 0 ' ' = BRUSH_CHARACTER ∨ mp.getD 0 ' ' = CURSOR_CHARACTER)) := by
  simp only [footprintOffsets, List.mem_filterMap]
  constructor
  · rintro ⟨i, hi, hoff⟩
    by_cases hq : mp.getD i ' ' = BRUSH_CHARACTER ∨ mp.getD i ' ' = CURSOR_CHARACTER
    · rw [if_pos hq] at hoff
      injection hoff with heq
      have h1 : (↑(i % S) : ℤ) - ↑(0 % S) = 0 := congrArg Prod.fst heq
      have h2 : (↑(i / S) : ℤ) - ↑(0 / S) = 0 := congrArg Prod.snd heq
      have e1 : i % S = 0 := by
        rw [Nat.zero_mod] at h1
        exact_mod_cast (by simpa using h1 : (↑(i % S) : ℤ) = 0)
      have e2 : i / S = 0 := by
        rw [Nat.zero_div] at h2
        exact_mod_cast (by simpa using h2 : (↑(i / S) : ℤ) = 0)
      have hi0 : i = 0 := by
        have hdm := Nat.div_add_mod i S
        rw [e1, e2] at hdm
        omega
      rw [hi0] at hq
      exact hq
    · rw [if_neg hq] at hoff
      cases hoff
  · intro hq
    have hlen : 0 < mp.length := by
      by_contra hlen
      push_neg at hlen
      have hnil : mp = [] := List.eq_nil_of_length_eq_zero (by omega)
      rw [hnil] at hq
      simp only [List.getD_nil] at hq
      exact absurd hq (by decide)
    refine ⟨0, List.mem_range.mpr hlen, ?_⟩
    rw [if_pos hq]
    simp

theorem drawBrush_bounds (bm : List Char) (x y : ℤ) (w : Bool) (st : List (ℕ × ℕ))
    (h : drawBrush bm x y = .stamped w st) :
    ∀ c ∈ st, c.1 < GRID_SIZE ∧ c.2 < GRID_SIZE := by
  obtain ⟨-, -, -, hst⟩ := drawBrush_stamped_inv bm x y w st h
  rw [hst]
  exact inBoundsCells_bounds x y _

/-! ### Stroke state machine lemmas -/

theorem markStroke_nil (sd : List (List Bool)) : markStroke sd [] = sd := rfl

theorem strokeCells_bounds (bm : List Char) (x y : ℤ) :
    ∀ c ∈ strokeCells bm x y, c.1 < GRID_SIZE ∧ c.2 < GRID_SIZE := by
  cases hdb : drawBrush bm x y with
  | emptyBrush =>
    simp only [strokeCells, hdb]
    intro c hc
    exact absurd hc (List.not_mem_nil c)
  | squareError =>
    simp only [strokeCells, hdb]
    intro c hc
    exact absurd hc (List.not_mem_nil c)
  | stamped w st =>
    simp only [strokeCells, hdb]
    exact drawBrush_bounds bm x y w st hdb

theorem stamp_eq (s : AppState) (x y : ℤ) :
    stamp s x y
      = { s with
          strokeData := markStroke s.strokeData (strokeCells s.canvasData.brushMap x y) } := by
  cases hdb : drawBrush s.canvasData.brushMap x y with
  | emptyBrush => simp only [stamp, strokeCells, hdb, markStroke_nil]
  | squareError => simp only [stamp, strokeCells, hdb, markStroke_nil]
  | stamped w st => simp only [stamp, strokeCells, hdb]

theorem stamp_canvasData (s : AppState) (x y : ℤ) :
    (stamp s x y).canvasData = s.canvasData := by
  rw [stamp_eq]

theorem stamp_strokeDown (s : AppState) (x y : ℤ) :
    (stamp s x y).strokeDown = s.strokeDown := by
  rw [stamp_eq]

theorem stamp_canvasHistory (s : AppState) (x y : ℤ) :
    (stamp s x y).canvasHistory = s.canvasHistory := by
  rw [stamp_eq]

theorem stamp_strokeData (s : AppState) (x y : ℤ) :
    (stamp s x y).strokeData
      = markStroke s.strokeData (strokeCells s.canvasData.brushMap x y) := by
  rw [stamp_eq]

theorem historyUpdate_nil (prevCanvas : List (List ℕ)) :
    historyUpdate [] prevCanvas = [] := by
  rw [historyUpdate, if_neg]
  intro hcon
  exact absurd hcon.1 (by simp)

theorem endStroke_down (s : AppState) (h : s.strokeDown = true) :
    endStroke s =
      { strokeDown := false,
        canvasData := { s.canvasData with canvas := overlayStrokeData s.canvasData s.strokeData },
        strokeData := makeMatrix GRID_SIZE false,
        canvasHistory := historyUpdate s.canvasHistory s.canvasData.canvas } := by
  rw [endStroke, if_pos h]

theorem endStroke_idle (s : AppState) (h : s.strokeDown = false) :
    endStroke s = { s with strokeDown := false } := by
  rw [endStroke, if_neg (by rw [h]; exact Bool.false_ne_true)]

theorem endStroke_history_nil (s : AppState) (h : s.canvasHistory = []) :
    (endStroke s).canvasHistory = [] := by
  cases hdown : s.strokeDown with
  | false =>
    rw [endStroke_idle s hdown]
    exact h
  | true =>
    rw [endStroke_down s hdown]
    dsimp only
    rw [h, historyUpdate_nil]

theorem step_history_nil (s : AppState) (o : Op) (h : s.canvasHistory = []) :
    (step s o).canvasHistory = [] := by
  cases o with
  | press x y =>
    show (stamp { s with strokeDown := true } x y).canvasHistory = []
    rw [stamp_canvasHistory]
    exact h
  | move x y =>
    show (if s.strokeDown then stamp s x y else s).canvasHistory = []
    by_cases hd : s.strokeDown = true
    · rw [if_pos hd, stamp_canvasHistory]
      exact h
    · rw [if_neg hd]
      exact h
  | release =>
    exact endStroke_history_nil s h

theorem run_history_nil : ∀ (ops : List Op) (s : AppState), s.canvasHistory = [] →
    (run s ops).canvasHistory = [] := by
  intro ops
  induction ops with
  | nil =>
    intro s h
    exact h
  | cons o rest ih =>
    intro s h
    show (run (step s o) rest).canvasHistory = []
    exact ih (step s o) (step_history_nil s o h)

theorem rect_stamp_strokeData {s : AppState} (h : Rect s.strokeData 32) (x y : ℤ) :
    Rect (stamp s x y).strokeData 32 := by
  rw [stamp_strokeData]
  exact rect_markStroke h _

theorem stampIter_canvasData (x y : ℤ) :
    ∀ (n : ℕ) (s : AppState), ((fun t => stamp t x y)^[n] s).canvasData = s.canvasData := by
  intro n
  induction n with
  | zero =>
    intro s
    rfl
  | succ k ih =>
    intro s
    rw [Function.iterate_succ_apply, ih (stamp s x y), stamp_canvasData]

theorem stampIter_strokeDown (x y : ℤ) :
    ∀ (n : ℕ) (s : AppState), ((fun t => stamp t x y)^[n] s).strokeDown = s.strokeDown := by
  intro n
  induction n with
  | zero =>
    intro s
    rfl
  | succ k ih =>
    intro s
    rw [Function.iterate_succ_apply, ih (stamp s x y), stamp_strokeDown]

theorem strokeCells_bounds32 (bm : List Char) (x y : ℤ) :
    ∀ c ∈ strokeCells bm x y, c.1 < 32 ∧ c.2 < 32 := by
  have h := strokeCells_bounds bm x y
  simpa [GRID_SIZE] using h

theorem stampIter_strokeData_getCell (x y : ℤ) (i j : ℕ) :
    ∀ (n : ℕ), 1 ≤ n → ∀ (s : AppState), Rect s.strokeData 32 →
      (getCell ((fun t => stamp t x y)^[n] s).strokeData i j false = true
        ↔ getCell (stamp s x y).strokeData i j false = true) := by
  intro n
  induction n with
  | zero =>
    intro h
    omega
  | succ k ih =>
    intro _ s hRect
    rcases Nat.eq_zero_or_pos k with hk | hk
    · rw [hk]
      rfl
    · rw [Function.iterate_succ_apply]
      rw [ih hk (stamp s x y) (rect_stamp_strokeData hRect x y)]
      rw [stamp_strokeData (stamp s x y) x y, stamp_canvasData s x y]
      rw [getCell_markStroke (rect_stamp_strokeData hRect x y) _
        (strokeCells_bounds32 s.canvasData.brushMap x y) i j]
      rw [stamp_strokeData s x y]
      rw [getCell_markStroke hRect _ (strokeCells_bounds32 s.canvasData.brushMap x y) i j]
      tauto

theorem blendChannel_midpoint : blendChannel 0 255 (1 / 2) = 128 := by
  rw [blendChannel, jsRound]
  have h : ((0 : ℕ) : ℚ) * (1 / 2) + ((255 : ℕ) : ℚ) * (1 - 1 / 2) + 1 / 2
      = ((128 : ℤ) : ℚ) := by
    push_cast
    norm_num
  rw [h, Int.floor_intCast]

theorem blendColors_midpoint : blendColors 0xFFFFFF 0x000000 (1 / 2) = 0x808080 := by
  have h1 : hexToRgb 0xFFFFFF = ⟨255, 255, 255⟩ := by decide
  have h2 : hexToRgb 0x000000 = ⟨0, 0, 0⟩ := by decide
  simp only [blendColors, h1, h2]
  simp only [blendChannel_midpoint]
  decide

/-! ## Claim theorems -/

/-- C1: the source pushes a history entry only when the history is
already non-empty (`history.length > 0 && …`), so from an empty history
a stroke commit records nothing — contradicting the claim that a commit
changing at least one cell gains exactly one entry "including an empty
history". -/
theorem history_no_push_on_empty_history (s : AppState) (h : s.canvasHistory = []) :
    (endStroke s).canvasHistory = [] :=
  endStroke_history_nil s h

theorem history_no_push_on_empty_history_witness :
    (endStroke (step initState (Op.press 5 5))).canvasHistory = [] := by
  apply history_no_push_on_empty_history
  show (stamp { initState with strokeDown := true } 5 5).canvasHistory = []
  rw [stamp_canvasHistory]
  rfl

/-- C2: the end-to-end scenario. Pressing at `(5, 5)` with the red 1×1
brush at opacity 1 and releasing does paint cell `(5, 5)` red
(`#D02E26`), but the history gains no entry at all: it stays empty
(the code's `history.length > 0` guard), where the claim expects exactly
one entry holding the pre-stroke grid. -/
theorem press_end_scenario_paints_but_no_history :
    getCell (endStroke (step initState (Op.press 5 5))).canvasData.canvas 5 5 0 = 0xD02E26
    ∧ (endStroke (step initState (Op.press 5 5))).canvasHistory = [] := by
  have hs1 : step initState (Op.press 5 5) = stamp { initState with strokeDown := true } 5 5 :=
    rfl
  have hdown : (step initState (Op.press 5 5)).strokeDown = true := by
    rw [hs1, stamp_strokeDown]
  have hcd : (step initState (Op.press 5 5)).canvasData = initState.canvasData := by
    rw [hs1, stamp_canvasData]
  have hsd : (step initState (Op.press 5 5)).strokeData
      = markStroke initState.strokeData (strokeCells tinyBrush 5 5) := by
    rw [hs1, stamp_strokeData]
    rfl
  have hcells : strokeCells tinyBrush 5 5 = [(5, 5)] := by
    simp only [strokeCells, show drawBrush tinyBrush 5 5 = .stamped false [(5, 5)] by decide]
  have hrect : Rect initState.canvasData.canvas 32 := rect_makeMatrix 32 whiteColor
  have hrectsd : Rect initState.strokeData 32 := rect_makeMatrix 32 false
  constructor
  · rw [endStroke_down _ hdown]
    dsimp only
    rw [hcd, hsd, hcells]
    rw [overlayStrokeData_getCell _ _ hrect 5 5 0 (by omega) (by omega)]
    have hmask : getCell (markStroke initState.strokeData [(5, 5)]) 5 5 false = true :=
      (getCell_markStroke hrectsd [(5, 5)] (by intro c hc; fin_cases hc; omega) 5 5).mpr
        (Or.inr (List.mem_singleton_self (5, 5)))
    rw [hmask, if_pos rfl]
    have hwhite : getCell initState.canvasData.canvas 5 5 0 = whiteColor :=
      getCell_makeMatrix 32 whiteColor 5 5 0 (by omega) (by omega)
    rw [hwhite]
    show blendColors whiteColor redColor 1 = 0xD02E26
    rw [blendColors_one whiteColor redColor (by norm_num [redColor])]
    rfl
  · rw [endStroke_down _ hdown]
    dsimp only
    have hh : (step initState (Op.press 5 5)).canvasHistory = [] := by
      rw [hs1, stamp_canvasHistory]
      rfl
    rw [hh, historyUpdate_nil]

/-- C3: the history stack never holds any entry at all, let alone the
claimed `capacity` most-recent snapshots: starting from the initial state
(empty history), every sequence of press/move/release events leaves the
history empty, because pushes are guarded by `history.length > 0`. -/
theorem history_never_grows (ops : List Op) : (run initState ops).canvasHistory = [] :=
  run_history_nil ops initState rfl

theorem history_never_grows_witness :
    (run initState [Op.press 5 5, Op.release, Op.press 6 6, Op.release]).canvasHistory = [] :=
  history_never_grows [Op.press 5 5, Op.release, Op.press 6 6, Op.release]

/-- C4 counterexample: for the square pattern `_000` with no anchor
marker, resolution continues with the missing-anchor warning, but the
resolved footprint does not contain the zero offset: stamped at the
in-bounds anchor `(16, 16)` the anchor cell itself is not painted. -/
theorem missing_anchor_zero_offset_cex :
    CURSOR_CHARACTER ∉ stripWhitespace ['_', '0', '0', '0']
    ∧ drawBrush ['_', '0', '0', '0'] 16 16
        = .stamped true [(17, 16), (16, 17), (17, 17)]
    ∧ (0, 0) ∉ footprintOffsets (stripWhitespace ['_', '0', '0', '0'])
        (intSqrt (stripWhitespace ['_', '0', '0', '0']).length) 0 := by
  refine ⟨by decide, by decide, by decide⟩

/-- C4 (amended): for every pattern of square stripped length, when the
anchor marker is present the resolved footprint contains the zero offset;
when it is absent, the anchor index defaults to 0, the non-fatal warning
is signaled and resolution continues, but the footprint contains the zero
offset only when the pattern's first character is itself a fill or anchor
marker. -/
theorem footprint_anchor_amended (bm : List Char)
    (hne : (stripWhitespace bm).length ≠ 0)
    (hsq : intSqrt (stripWhitespace bm).length * intSqrt (stripWhitespace bm).length
      = (stripWhitespace bm).length) :
    (CURSOR_CHARACTER ∈ stripWhitespace bm →
      (0, 0) ∈ footprintOffsets (stripWhitespace bm) (intSqrt (stripWhitespace bm).length)
        ((stripWhitespace bm).indexOf CURSOR_CHARACTER))
    ∧ (CURSOR_CHARACTER ∉ stripWhitespace bm → ∀ x y : ℤ,
      drawBrush bm x y = .stamped true
        (inBoundsCells x y (footprintOffsets (stripWhitespace bm)
          (intSqrt (stripWhitespace bm).length) 0))
      ∧ ((0, 0) ∈ footprintOffsets (stripWhitespace bm)
            (intSqrt (stripWhitespace bm).length) 0
          ↔ ((stripWhitespace bm).getD 0 ' ' = BRUSH_CHARACTER
              ∨ (stripWhitespace bm).getD 0 ' ' = CURSOR_CHARACTER))) := by
  constructor
  · intro hX
    exact zero_mem_footprintOffsets _ _ hX
  · intro hX x y
    have hidx : (stripWhitespace bm).indexOf CURSOR_CHARACTER = (stripWhitespace bm).length :=
      List.indexOf_eq_length.mpr hX
    refine ⟨?_, zero_mem_footprintOffsets_missing _ _⟩
    rw [drawBrush_eq_stamped bm x y hne hsq, if_pos hidx]
    rw [hidx]
    simp

set_option maxRecDepth 50000 in
theorem footprint_anchor_amended_witness :
    (0, 0) ∈ footprintOffsets (stripWhitespace ['X', '0', '0', '0'])
      (intSqrt (stripWhitespace ['X', '0', '0', '0']).length)
      ((stripWhitespace ['X', '0', '0', '0']).indexOf CURSOR_CHARACTER) :=
  (footprint_anchor_amended ['X', '0', '0', '0'] (by decide) (by decide)).1 (by decide)

/-- C5: blending laws. With the inputs decoded to 8-bit channels, the
per-channel rounding formula stays in `[0, 255]` with no clamping for any
opacity in `[0, 1]` (so the packed result is a valid 24-bit color);
opacity 1 returns the overlay color exactly for every valid color; and
black over white at opacity 1/2 gives `#808080`. -/
theorem blendColors_props :
    (∀ base ov : ℕ, ov < 16777216 → blendColors base ov 1 = ov)
    ∧ blendColors 0xFFFFFF 0x000000 (1 / 2) = 0x808080
    ∧ (∀ n c : ℕ, ∀ alpha : ℚ, n ≤ 255 → c ≤ 255 → 0 ≤ alpha → alpha ≤ 1 →
        0 ≤ blendChannel n c alpha ∧ blendChannel n c alpha ≤ 255)
    ∧ (∀ base ov : ℕ, ∀ alpha : ℚ, 0 ≤ alpha → alpha ≤ 1 →
        blendColors base ov alpha < 16777216) := by
  refine ⟨blendColors_one, blendColors_midpoint, ?_, blendColors_lt⟩
  intro n c alpha hn hc h0 h1
  exact ⟨blendChannel_nonneg n c alpha h0 h1, blendChannel_le_255 n c alpha h0 h1 hn hc⟩

theorem blendColors_props_witness : blendColors 0x123456 0xABCDEF 1 = 0xABCDEF :=
  blendColors_props.1 0x123456 0xABCDEF (by norm_num)

/-- C6: stamping the same anchor any number `n ≥ 1` of times within one
stroke and then committing yields, cell for cell, the same grid as
stamping it once and committing: each stamp only sets mask bits, and the
commit blends every masked cell once against the committed grid color. -/
theorem stamp_idempotent_commit (s : AppState) (x y : ℤ) (n : ℕ) (hn : 1 ≤ n)
    (hsd : Rect s.strokeData 32) (hcv : Rect s.canvasData.canvas 32)
    (i j : ℕ) (hi : i < 32) (hj : j < 32) :
    getCell (endStroke ((fun t => stamp t x y)^[n] s)).canvasData.canvas i j 0
      = getCell (endStroke (stamp s x y)).canvasData.canvas i j 0 := by
  cases hdown : s.strokeDown with
  | false =>
    have h1 : ((fun t => stamp t x y)^[n] s).strokeDown = false := by
      rw [stampIter_strokeDown x y n s, hdown]
    have h2 : (stamp s x y).strokeDown = false := by
      rw [stamp_strokeDown, hdown]
    rw [endStroke_idle _ h1, endStroke_idle _ h2]
    dsimp only
    rw [stampIter_canvasData x y n s, stamp_canvasData]
  | true =>
    have h1 : ((fun t => stamp t x y)^[n] s).strokeDown = true := by
      rw [stampIter_strokeDown x y n s, hdown]
    have h2 : (stamp s x y).strokeDown = true := by
      rw [stamp_strokeDown, hdown]
    rw [endStroke_down _ h1, endStroke_down _ h2]
    dsimp only
    rw [stampIter_canvasData x y n s, stamp_canvasData]
    rw [overlayStrokeData_getCell _ _ hcv i j 0 hi hj,
      overlayStrokeData_getCell _ _ hcv i j 0 hi hj]
    have hmask : getCell ((fun t => stamp t x y)^[n] s).strokeData i j false
        = getCell (stamp s x y).strokeData i j false := by
      rw [Bool.eq_iff_iff]
      exact stampIter_strokeData_getCell x y i j n hn s hsd
    rw [hmask]

theorem stamp_idempotent_commit_witness :
    getCell (endStroke ((fun t => stamp t 5 5)^[3] initState)).canvasData.canvas 5 5 0
      = getCell (endStroke (stamp initState 5 5)).canvasData.canvas 5 5 0 :=
  stamp_idempotent_commit initState 5 5 3 (by norm_num)
    (rect_makeMatrix 32 false) (rect_makeMatrix 32 whiteColor) 5 5 (by norm_num) (by norm_num)

/-- C7: a pattern whose stripped length is not a perfect square makes
`drawBrush` fail synchronously with the square-shape error, and the
failed stamp leaves the state (in particular the stroke mask) untouched:
no cell is stamped. -/
theorem nonsquare_pattern_error (bm : List Char) (x y : ℤ)
    (h : ∀ k, k ≤ (stripWhitespace bm).length → k * k ≠ (stripWhitespace bm).length) :
    drawBrush bm x y = .squareError
    ∧ ∀ s : AppState, s.canvasData.brushMap = bm → stamp s x y = s := by
  have hne : (stripWhitespace bm).length ≠ 0 := fun h0 => h 0 (by omega) (by omega)
  have hsq : intSqrt (stripWhitespace bm).length * intSqrt (stripWhitespace bm).length
      ≠ (stripWhitespace bm).length :=
    h _ (intSqrt_le _)
  refine ⟨drawBrush_squareError bm x y hne hsq, ?_⟩
  intro s hs
  have hcells : strokeCells bm x y = [] := by
    simp only [strokeCells, drawBrush_squareError bm x y hne hsq]
  rw [stamp_eq, hs, hcells, markStroke_nil]

set_option maxRecDepth 10000 in
theorem nonsquare_pattern_error_witness :
    drawBrush ['0', '0', '0'] 4 4 = DrawResult.squareError :=
  (nonsquare_pattern_error ['0', '0', '0'] 4 4 (by decide)).1

/-- C8: every cell a stamp produces is inside `[0, GRID_SIZE)²` — the
footprint is silently filtered, never an error — and conversely every
footprint offset whose anchored position is in bounds is stamped, so
exactly the in-bounds subset is painted. -/
theorem stroke_bounds_filter (bm : List Char) (x y : ℤ) (w : Bool) (st : List (ℕ × ℕ))
    (h : drawBrush bm x y = .stamped w st) :
    (∀ c ∈ st, c.1 < GRID_SIZE ∧ c.2 < GRID_SIZE)
    ∧ ∀ off ∈ footprintOffsets (stripWhitespace bm) (intSqrt (stripWhitespace bm).length)
        (if (stripWhitespace bm).indexOf CURSOR_CHARACTER = (stripWhitespace bm).length then 0
         else (stripWhitespace bm).indexOf CURSOR_CHARACTER),
      0 ≤ x + off.1 → x + off.1 < (GRID_SIZE : ℤ) → 0 ≤ y + off.2 →
        y + off.2 < (GRID_SIZE : ℤ) →
      ((x + off.1).toNat, (y + off.2).toNat) ∈ st := by
  obtain ⟨-, -, -, hst⟩ := drawBrush_stamped_inv bm x y w st h
  constructor
  · exact drawBrush_bounds bm x y w st h
  · intro off hmem h1 h2 h3 h4
    rw [hst]
    exact mem_inBoundsCells x y hmem h1 h2 h3 h4

set_option maxRecDepth 50000 in
theorem stroke_bounds_filter_witness :
    ((4 : ℕ), (5 : ℕ)) ∈ [((5 : ℕ), (4 : ℕ)), (6, 4), (4, 5), (5, 5), (6, 5), (7, 5),
      (4, 6), (5, 6), (6, 6), (7, 6), (5, 7), (6, 7)] := by
  have h := (stroke_bounds_filter mediumBrush 5 5 false
    [(5, 4), (6, 4), (4, 5), (5, 5), (6, 5), (7, 5), (4, 6), (5, 6), (6, 6), (7, 6), (5, 7), (6, 7)]
    (by decide)).2 (-1, 0) (by decide) (by decide) (by decide) (by decide) (by decide)
  exact h

/-- C9: a commit only changes masked cells — any cell whose mask entry
is false keeps its pre-commit color — and releasing with no active stroke
(`strokeDown = false`) leaves the grid, the history and the mask
unchanged. -/
theorem commit_touched_only :
    (∀ (s : AppState) (i j : ℕ), s.strokeDown = true → Rect s.canvasData.canvas 32 →
      i < 32 → j < 32 → getCell s.strokeData i j false = false →
      getCell (endStroke s).canvasData.canvas i j 0 = getCell s.canvasData.canvas i j 0)
    ∧ (∀ s : AppState, s.strokeDown = false →
      (endStroke s).canvasData = s.canvasData
      ∧ (endStroke s).canvasHistory = s.canvasHistory
      ∧ (endStroke s).strokeData = s.strokeData) := by
  constructor
  · intro s i j hdown hrect hi hj hmask
    rw [endStroke_down s hdown]
    dsimp only
    rw [overlayStrokeData_getCell _ _ hrect i j 0 hi hj, hmask,
      if_neg Bool.false_ne_true]
  · intro s hidle
    rw [endStroke_idle s hidle]
    exact ⟨rfl, rfl, rfl⟩

theorem commit_touched_only_witness :
    (endStroke initState).canvasData = initState.canvasData
    ∧ (endStroke initState).canvasHistory = initState.canvasHistory
    ∧ (endStroke initState).strokeData = initState.strokeData :=
  commit_touched_only.2 initState rfl

/-- C10: a brush pattern whose whitespace-stripped text is empty makes
the stamp return immediately: the result is the silent early return (no
error, no missing-anchor warning) and the state — in particular the
stroke mask — is unchanged, even though length 0 would pass the
perfect-square check. -/
theorem empty_brush_noop (bm : List Char) (x y : ℤ) (h : stripWhitespace bm = []) :
    drawBrush bm x y = .emptyBrush
    ∧ ∀ s : AppState, s.canvasData.brushMap = bm → stamp s x y = s := by
  have hlen : (stripWhitespace bm).length = 0 := by
    rw [h]
    rfl
  refine ⟨drawBrush_empty bm x y hlen, ?_⟩
  intro s hs
  have hcells : strokeCells bm x y = [] := by
    simp only [strokeCells, drawBrush_empty bm x y hlen]
  rw [stamp_eq, hs, hcells, markStroke_nil]

theorem empty_brush_noop_witness :
    drawBrush [' ', '\n'] 3 3 = DrawResult.emptyBrush :=
  (empty_brush_noop [' ', '\n'] 3 3 (by decide)).1

end Painting
